import Mathlib

/-!
Verification development for the zerox document-OCR pipeline
(`node-zerox`).  The definitions below are a shallow embedding of the
TypeScript source: `src/node-zerox/src/index.ts` (orchestrator, OCR
driver, extraction driver, result assembly), `src/node-zerox/src/constants.ts`
(consistency prompt) and the OpenAI / Google provider adapters.
Each definition carries a reference to the source lines it embeds.
-/

namespace Zerox

/-! ## JSON values (extraction responses are parsed JSON) -/

/-- JSON values as produced by `JSON.parse` on provider responses.
Numbers are modelled as integers; nothing in the merge logic inspects
numeric values beyond JS truthiness. -/
inductive Json where
  | null : Json
  | bool : Bool → Json
  | num : Int → Json
  | str : String → Json
  | arr : List Json → Json
  | obj : List (String × Json) → Json
deriving Repr, Inhabited

/-- JS truthiness of a JSON value: `null`, `false`, `0` and `""` are
falsy; arrays and objects are always truthy. -/
def Json.jsTruthy : Json → Bool
  | .null => false
  | .bool b => b
  | .num n => n != 0
  | .str s => !s.isEmpty
  | .arr _ => true
  | .obj _ => true

/-- JS truthiness of a possibly-absent value (`undefined` is falsy). -/
def jsTruthyOpt : Option Json → Bool
  | none => false
  | some v => v.jsTruthy

/-! ## Pages (types.ts `Page`, values built in index.ts `processOCR`) -/

/-- Page status, from `enum PageStatus { SUCCESS, ERROR }`. -/
inductive PageStatus where
  | success : PageStatus
  | error : PageStatus
deriving Repr, DecidableEq, Inhabited

/-- A per-page OCR result (types.ts `Page`).  `page` is the 1-based page
number; `error` is present only on failed pages. -/
structure Page where
  content : String
  contentLength : Nat
  page : Int
  status : PageStatus
  error : Option String := none
deriving Repr, DecidableEq, Inhabited

/-! ## Orchestrator argument validation (index.ts lines 47-128)

Only the fields inspected by the validators are modelled.  JS string
truthiness (`""` is falsy) is made explicit.  `credentials` is modelled
by its list of values (`Object.values(credentials)`), each an optional
string field of the credentials record. -/

/-- Model provider tag (types.ts `ModelProvider`). -/
inductive ModelProvider where
  | azure : ModelProvider
  | bedrock : ModelProvider
  | google : ModelProvider
  | openai : ModelProvider
deriving Repr, DecidableEq, Inhabited

/-- The subset of `ZeroxArgs` inspected by the synchronous validators
(index.ts lines 47-128).  Defaults from the destructuring are the
`structure` defaults. -/
structure ZeroxArgs where
  credentials : List String := [""]
  directImageExtraction : Bool := false
  enableHybridExtraction : Bool := false
  extractOnly : Bool := false
  filePath : Option String := none
  maintainFormat : Bool := false
  modelProvider : ModelProvider := .openai
  openaiAPIKey : String := ""
  schema : Option Json := none
deriving Repr, Inhabited

/-- The effective configuration after validation: the fields the rest of
the run reads, post override and post `extractOnly ⇒
directImageExtraction` promotion (index.ts lines 96-128). -/
structure EffectiveConfig where
  credentials : List String
  directImageExtraction : Bool
  modelProvider : ModelProvider
deriving Repr, DecidableEq, Inhabited

/-- index.ts lines 96-99: a non-empty `openaiAPIKey` forces
`modelProvider = OPENAI` and replaces `credentials` with
`{ apiKey: openaiAPIKey }` (whose value list is the singleton). -/
def applyOpenaiKeyOverride (args : ZeroxArgs) : ModelProvider × List String :=
  if !args.openaiAPIKey.isEmpty then
    (ModelProvider.openai, [args.openaiAPIKey])
  else
    (args.modelProvider, args.credentials)

/-- index.ts lines 96-128: the synchronous validators, run before any
resource provisioning.  Returns the first error thrown, or the effective
configuration.  Mirrors the source order of the checks. -/
def zeroxValidate (args : ZeroxArgs) : Except String EffectiveConfig :=
  let (modelProvider, credentials) := applyOpenaiKeyOverride args
  if credentials.all (fun credential => credential.isEmpty) then
    .error "Missing credentials"
  else if (args.filePath.getD "").isEmpty then
    .error "Missing file path"
  else if args.enableHybridExtraction &&
      (args.directImageExtraction || args.extractOnly) then
    .error "Hybrid extraction cannot be used in direct image extraction or extract-only mode"
  else if args.enableHybridExtraction && !args.schema.isSome then
    .error "Schema is required when hybrid extraction is enabled"
  else if args.extractOnly && !args.schema.isSome then
    .error "Schema is required for extraction mode"
  else if args.extractOnly && args.maintainFormat then
    .error "Maintain format is only supported in OCR mode"
  else
    .ok { credentials := credentials
          directImageExtraction := args.directImageExtraction || args.extractOnly
          modelProvider := modelProvider }

/-! ## Resource lifecycle (index.ts lines 130-157, 616-622, 684-700)

`zerox` creates the Tesseract scheduler (when `correctOrientation`)
*before* entering the `try` block, creates the temp directory first
thing inside the `try`, removes it on the happy path (line 616) and
again guarded by `pathExists` in the `finally` block (lines 691-699),
which also terminates the scheduler (lines 685-689).  The model below
abstracts one run by where it fails:
  * `validationFails` — a validator throws (before any provisioning);
  * `schedInitFails` — `addWorkersToTesseractScheduler` rejects after
    the scheduler was created, still before the `try` block;
  * `bodyOutcome = some created` — the `try` body throws, with
    `created` recording whether the temp directory existed at that
    point (`fs.ensureDir` itself may have failed);
  * `bodyOutcome = none` — the body runs to completion. -/

/-- Observable state when `zerox` returns or throws. -/
structure ExitState where
  tempDirExists : Bool
  schedulerActive : Bool
  threw : Bool
deriving Repr, DecidableEq, Inhabited

/-- One abstracted run of `zerox`: control flow of index.ts lines
130-157, 616-622 and 684-700 over the temp-directory / scheduler
state. -/
def zeroxExec (cleanup correctOrientation : Bool)
    (validationFails schedInitFails : Bool)
    (bodyOutcome : Option Bool) : ExitState :=
  if validationFails then
    -- Validators throw before the scheduler or temp dir exist.
    { tempDirExists := false, schedulerActive := false, threw := true }
  else if correctOrientation && schedInitFails then
    -- Worker start-up rejected after `getTesseractScheduler` succeeded;
    -- the `try`/`finally` was never entered.
    { tempDirExists := false, schedulerActive := true, threw := true }
  else
    -- Inside the try block: temp dir state at the end of the body.
    let tempAfterBody :=
      match bodyOutcome with
      | some created => created
      | none => !cleanup  -- happy-path cleanup at line 616 when `cleanup`
    -- `finally` (lines 684-700): terminate scheduler, then remove the
    -- temp directory when `cleanup` and it still exists.
    let tempAfterFinally := if cleanup && tempAfterBody then false else tempAfterBody
    { tempDirExists := tempAfterFinally
      schedulerActive := false
      threw := bodyOutcome.isSome }

/-! ## Page-number formatting (index.ts lines 169-173, 217-228, 629-651) -/

/-- The `pagesToConvertAsImages` argument: `-1` (all pages), a single
1-based page number, or an array of page numbers. -/
inductive PagesToConvert where
  | all : PagesToConvert
  | single : Int → PagesToConvert
  | list : List Int → PagesToConvert
deriving Repr, DecidableEq, Inhabited

/-- index.ts lines 169-173 and 217-228: in the PDF path the scalar form
is wrapped into an array, the array is sorted ascending (line 172,
`.sort((a, b) => a - b)`, modelled by an ascending sort) and filtered to
the 1..totalPages range (line 222). -/
def preparePagesToConvert (ptc : PagesToConvert) (totalPages : Int) :
    PagesToConvert :=
  match ptc with
  | .all => .all
  | .single n => .list ([n].filter (fun p => 0 < p && p ≤ totalPages))
  | .list l =>
    .list ((l.insertionSort (· ≤ ·)).filter
      (fun p => 0 < p && p ≤ totalPages))

/-- index.ts lines 630-642: the page number assigned to index `i` of the
`pages` array.  In the source an out-of-range array access yields
`undefined`; the default `0` here is never observed because the run
keeps `pages.length ≤ l.length` (the images are rasterized exactly from
the filtered list). -/
def correctPageNumber (ptc : PagesToConvert) (i : Nat) : Int :=
  match ptc with
  | .all => (i : Int) + 1
  | .list l => l.getD i 0
  | .single n => n

/-- Index-carrying map, `pages.map((page, i) => ...)`. -/
def mapPagesIdx (f : Nat → Page → Page) : Nat → List Page → List Page
  | _, [] => []
  | i, p :: rest => f i p :: mapPagesIdx f (i + 1) rest

/-- index.ts lines 629-651: `formattedPages` rewrites each page record
with the page number computed from `pagesToConvertAsImages`. -/
def formattedPages (ptc : PagesToConvert) (pages : List Page) : List Page :=
  mapPagesIdx (fun i page => { page with page := correctPageNumber ptc i }) 0 pages

/-! ## Concurrent OCR loop (index.ts lines 387-399)

`Promise.all(imagePaths.map((imagePath, i) => limit(() =>
processOCR(...).then((page) => { pages[i] = page; }))))` — every task
writes exactly one slot of the `pages` array, indexed by page order.
The event-loop interleaving is abstracted as the order in which the
completion callbacks run: a permutation of the task indices. -/

/-- Perform the per-task `pages[i] = page` writes in completion order.
`outcomes i` is the `Page` value task `i` resolved with (it depends only
on the task, not on when it completes). -/
def applyWrites (outcomes : Nat → Page) :
    List Nat → List (Option Page) → List (Option Page)
  | [], arr => arr
  | i :: rest, arr => applyWrites outcomes rest (arr.set i (some (outcomes i)))

/-- The `pages` array after the concurrent loop, given `n` tasks whose
completion callbacks run in `completionOrder`. -/
def runConcurrentOCR (n : Nat) (outcomes : Nat → Page)
    (completionOrder : List Nat) : List (Option Page) :=
  applyWrites outcomes completionOrder (List.replicate n none)

/-! ## Sequential maintainFormat OCR loop (index.ts lines 284-386)

The per-page work is abstracted by its outcome: the processed content
the retry-wrapped LLM call plus `CompletionProcessor` produced, or the
error it threw after exhausting retries.  The run records an event
trace: each `processOCR` call starts (with the `priorPage` value it
captures) and ends in a terminal status. -/

/-- Outcome of the retry-wrapped model call and completion processing
for one page. -/
inductive OCROutcome where
  | ok : String → OCROutcome
  | fail : String → OCROutcome
deriving Repr, DecidableEq, Inhabited

/-- Error mode (types.ts `ErrorMode`). -/
inductive ErrorMode where
  | throwMode : ErrorMode
  | ignoreMode : ErrorMode
deriving Repr, DecidableEq, Inhabited

/-- Trace events of the OCR driver: an LLM call for a page starts
(recording the `priorPage` passed to it) or reaches a terminal state. -/
inductive Event where
  | callStart : Nat → String → Event
  | callEnd : Nat → PageStatus → Event
deriving Repr, DecidableEq, Inhabited

/-- Result of the maintainFormat loop: the event trace, the `pages`
array contents, and the propagated exception (THROW mode only). -/
structure MFResult where
  trace : List Event
  pages : List Page
  thrown : Option String
deriving Repr, DecidableEq, Inhabited

/-- index.ts lines 350-354: the `Page` built on success
(`contentLength` comes from the processed response). -/
def successPage (k : Nat) (content : String) : Page :=
  { content := content, contentLength := content.length, page := (k : Int),
    status := .success }

/-- index.ts lines 363-369: the `Page` built when `errorMode = IGNORE`
swallows the failure. -/
def errorPage (k : Nat) (err : String) : Page :=
  { content := "", contentLength := 0,
    error := some ("Failed to process page " ++ toString k ++ ": " ++ err),
    page := (k : Int), status := .error }

/-- index.ts lines 376-386: `for (let i = 0; ...) { const page = await
processOCR(imagePaths[i], i + 1, true); pages.push(page); if
(page.status === ERROR) break; }` with the priorPage update at lines
346-348.  `k` is the page number of the next call, `prior` the current
`priorPage` variable. -/
def runMFAux (em : ErrorMode) :
    List OCROutcome → Nat → String → MFResult
  | [], _, _ => ⟨[], [], none⟩
  | .ok content :: rest, k, prior =>
    let r := runMFAux em rest (k + 1) content
    ⟨.callStart k prior :: .callEnd k .success :: r.trace,
      successPage k content :: r.pages, r.thrown⟩
  | .fail e :: _, k, prior =>
    match em with
    | .throwMode => ⟨[.callStart k prior, .callEnd k .error], [], some e⟩
    | .ignoreMode =>
      ⟨[.callStart k prior, .callEnd k .error], [errorPage k e], none⟩

/-- The maintainFormat loop starting from page 1 with `priorPage = ""`
(index.ts line 90). -/
def runMaintainFormat (em : ErrorMode) (outcomes : List OCROutcome) :
    MFResult :=
  runMFAux em outcomes 1 ""

/-! ## Provider OCR message building
(constants.ts lines 9-10; OpenAI adapter `handleOCR`; google.ts
`handleOCR`).  Image buffers are modelled by their base64 encodings
(`encodeImageToBase64` lives in the utils module, outside the embedded
core). -/

/-- constants.ts lines 9-10. -/
def CONSISTENCY_PROMPT (priorPage : String) : String :=
  "Markdown must maintain consistent formatting with the following page: \n\n \"\"\"" ++
    priorPage ++ "\"\"\""

/-- Data-URL wrapper (`data:image/png;base64,`) used by the OpenAI adapter. -/
def dataUrl (b64 : String) : String := "data:image/png;base64," ++ b64

/-- One entry of the OpenAI `messages` array: a system text message or
the user message carrying the image parts. -/
inductive OpenAIMessage where
  | system : String → OpenAIMessage
  | userImages : List String → OpenAIMessage
deriving Repr, DecidableEq, Inhabited

/-- The OCR system prompt, `prompt || SYSTEM_PROMPT_BASE` (JS `||`: an empty or absent caller
prompt falls back to the base system prompt, which is a module-level
mutable and is passed in here). -/
def openAISystemPrompt (systemPromptBase : String) (prompt : Option String) :
    String :=
  match prompt with
  | some p => if p.isEmpty then systemPromptBase else p
  | none => systemPromptBase

/-- OpenAI adapter `handleOCR` message construction: the system prompt
first, then (when `maintainFormat` and `priorPage` is truthy) the
consistency prompt as a second system message, then the user message
with the image parts. -/
def openAIBuildOCRMessages (systemPromptBase : String) (prompt : Option String)
    (maintainFormat : Bool) (priorPage : String) (buffers : List String) :
    List OpenAIMessage :=
  [OpenAIMessage.system (openAISystemPrompt systemPromptBase prompt)] ++
    (if maintainFormat && !priorPage.isEmpty then
      [OpenAIMessage.system (CONSISTENCY_PROMPT priorPage)]
    else []) ++
    [OpenAIMessage.userImages (buffers.map dataUrl)]

/-- One entry of the Google `contents` array. -/
inductive GooglePart where
  | inlineImage : String → GooglePart
  | text : String → GooglePart
deriving Repr, DecidableEq, Inhabited

/-- google.ts `handleOCR` lines 147-162: image parts pushed first, then
the consistency prompt when `maintainFormat` and `priorPage` is truthy.
The system instruction travels separately in the request `config`. -/
def googleBuildOCRParts (maintainFormat : Bool) (priorPage : String)
    (buffers : List String) : List GooglePart :=
  buffers.map GooglePart.inlineImage ++
    (if maintainFormat && !priorPage.isEmpty then
      [GooglePart.text (CONSISTENCY_PROMPT priorPage)]
    else [])

/-- google.ts line 164: the OCR system instruction. -/
def googleOCRSystemInstruction (systemPromptBase : String)
    (prompt : Option String) : String :=
  openAISystemPrompt systemPromptBase prompt

/-! ## OpenAI max-token parameter translation
(OpenAI adapter `handleOCR` lines 124-135 and `handleExtraction` lines
181-191). -/

/-- String prefix test, semantically `String.startsWith`, phrased over
the character list so that concrete instances evaluate by `decide`. -/
def strStartsWith (s p : String) : Bool := p.data.isPrefixOf s.data

/-- JS truthiness of a possibly-absent numeric parameter. -/
def jsTruthyInt : Option Int → Bool
  | none => false
  | some v => v != 0

/-- The snake-cased LLM parameters relevant to the translation. -/
structure SnakeParams where
  max_tokens : Option Int := none
  max_completion_tokens : Option Int := none
deriving Repr, DecidableEq, Inhabited

/-- Operation mode (types.ts `OperationMode`). -/
inductive OperationMode where
  | ocr : OperationMode
  | extraction : OperationMode
deriving Repr, DecidableEq, Inhabited

/-- OpenAI adapter `handleOCR` lines 125-130: model prefixes that take
`max_completion_tokens` in OCR mode. -/
def ocrModelCheck (model : String) : Bool :=
  strStartsWith model "o" || strStartsWith model "o3" ||
    strStartsWith model "o4" || strStartsWith model "gpt-5"

/-- OpenAI adapter `handleExtraction` lines 182-186: model prefixes that
take `max_completion_tokens` in EXTRACTION mode. -/
def extractionModelCheck (model : String) : Bool :=
  strStartsWith model "o1" || strStartsWith model "o3" ||
    strStartsWith model "gpt-5"

/-- Embeds `if (params.max_tokens) { params.max_completion_tokens =
params.max_tokens; delete params.max_tokens; }` guarded by the prefix
check. -/
def translateMaxTokens (check : Bool) (params : SnakeParams) : SnakeParams :=
  if check && jsTruthyInt params.max_tokens then
    { max_tokens := none, max_completion_tokens := params.max_tokens }
  else params

/-- The translation the OpenAI adapter applies before each request, by
operation mode. -/
def openAITranslateParams (mode : OperationMode) (model : String)
    (params : SnakeParams) : SnakeParams :=
  match mode with
  | .ocr => translateMaxTokens (ocrModelCheck model) params
  | .extraction => translateMaxTokens (extractionModelCheck model) params

/-- The prefix family named by the specification (claim C8): `o`, `o3`,
`o4`, `gpt-5`, for both modes. -/
def specC8Prefixes (model : String) : Bool :=
  strStartsWith model "o" || strStartsWith model "o3" ||
    strStartsWith model "o4" || strStartsWith model "gpt-5"

/-- Claim C8 as stated: in both modes, any model matching the listed
prefixes has a present `max_tokens` moved to `max_completion_tokens`. -/
def specC8Claim : Prop :=
  ∀ (mode : OperationMode) (model : String) (params : SnakeParams),
    specC8Prefixes model = true →
    params.max_tokens.isSome →
    (openAITranslateParams mode model params).max_completion_tokens =
        params.max_tokens ∧
      (openAITranslateParams mode model params).max_tokens = none

/-- Claim C9 as stated: on every exit path of a `cleanup = true` run the
temp directory is gone and, when `correctOrientation` is set, the
Tesseract scheduler has been terminated. -/
def specC9Claim : Prop :=
  ∀ (co vf sif : Bool) (bo : Option Bool),
    (zeroxExec true co vf sif bo).tempDirExists = false ∧
    (co = true → (zeroxExec true co vf sif bo).schedulerActive = false)

/-! ## Extraction result wrapping and merging
(index.ts `processExtraction` lines 425-486 and the merge reduce at
lines 577-590).  Extraction responses are parsed JSON objects, modelled
as association lists in key insertion order, as JS objects iterate. -/

/-- JS `obj[key]`: the value of the first binding of `key`, or absent. -/
def lookupJ : List (String × Json) → String → Option Json
  | [], _ => none
  | (k', v) :: rest, k => if k' = k then some v else lookupJ rest k

/-- JS `obj[key] = v`: replace the first binding in place, or append a
new binding. -/
def setKey : List (String × Json) → String → Json → List (String × Json)
  | [], k, v => [(k, v)]
  | (k', v') :: rest, k, v =>
    if k' = k then (k, v) :: rest else (k', v') :: setKey rest k v

/-- index.ts line 472: `{ page: pageNumber, value }`. -/
def wrapEntry (pageNumber : Nat) (value : Json) : Json :=
  .obj [("page", .num (pageNumber : Int)), ("value", value)]

/-- index.ts lines 466-474, one iteration of the `for (const key of
Object.keys(schema?.properties ?? {}))` loop: a non-null, non-undefined
response value for `key` is wrapped and pushed onto `result[key]`
(reset to `[]` first when it is not an array). -/
def wrapStep (pageNumber : Nat) (response : List (String × Json))
    (result : List (String × Json)) (key : String) : List (String × Json) :=
  match lookupJ response key with
  | none => result
  | some .null => result
  | some v =>
    let xs := match lookupJ result key with
      | some (.arr xs) => xs
      | _ => []
    setKey result key (.arr (xs ++ [wrapEntry pageNumber v]))

/-- index.ts lines 466-474: the per-page result object built by
`processExtraction` for page `pageNumber` from the parsed response. -/
def wrapPerPage (schemaProps : List String) (pageNumber : Nat)
    (response : List (String × Json)) : List (String × Json) :=
  schemaProps.foldl (wrapStep pageNumber response) []

/-- Keys of a parsed JSON object, in insertion order. -/
def keysOf (l : List (String × Json)) : List String :=
  l.map (fun kv => kv.1)

/-- index.ts lines 500-504: the per-page extraction tasks are created in
page order, page `i + 1` for input index `i`; their results are the
wrapped objects. -/
def wrapAllAux (props : List String) :
    List (List (String × Json)) → Nat → List (List (String × Json))
  | [], _ => []
  | resp :: rest, n =>
    wrapPerPage props n resp :: wrapAllAux props rest (n + 1)

/-- All per-page wrapped results, pages numbered from 1. -/
def wrapAll (props : List String)
    (responses : List (List (String × Json))) :
    List (List (String × Json)) :=
  wrapAllAux props responses 1

/-- View `Array.isArray(x) ? x : []` of an optional JSON value. -/
def arrOrEmpty : Option Json → List Json
  | some (.arr xs) => xs
  | _ => []

/-- Statement vocabulary for the C6 theorem: the `{page, value}` entries
a key is expected to collect across the per-page responses, in page
order, dropping null/absent values. -/
def expectedPerPageAux (k : String) :
    List (List (String × Json)) → Nat → List Json
  | [], _ => []
  | resp :: rest, n =>
    (match lookupJ resp k with
     | none => []
     | some .null => []
     | some v => [wrapEntry n v]) ++ expectedPerPageAux k rest (n + 1)

/-- The expected per-page entry list for key `k`, pages numbered
from 1. -/
def expectedPerPage (k : String)
    (responses : List (List (String × Json))) : List Json :=
  expectedPerPageAux k responses 1

/-- The concatenated per-key contributions of a list of merge inputs:
what the reduce appends for key `k` from each result object. -/
def contribOf (k : String) : List (List (String × Json)) → List Json
  | [] => []
  | r :: rest => arrOrEmpty (lookupJ r k) ++ contribOf k rest

/-- index.ts lines 579-588, one `Object.entries(result).forEach`
iteration of the final reduce: create `acc[key] = []` when the current
binding is missing or falsy; then spread-push array values and assign
non-array values.  `acc[key].push(...)` on a truthy non-array raises a
`TypeError` in JS, modelled as an error result. -/
def mergeEntry (acc : List (String × Json)) (key : String) (value : Json) :
    Except String (List (String × Json)) :=
  let acc := if jsTruthyOpt (lookupJ acc key) then acc
    else setKey acc key (.arr [])
  match value with
  | .arr xs =>
    match lookupJ acc key with
    | some (.arr ys) => .ok (setKey acc key (.arr (ys ++ xs)))
    | _ => .error "TypeError: acc[key].push is not a function"
  | v => .ok (setKey acc key v)

/-- Merge one task result object into the accumulator. -/
def mergeResult (acc : List (String × Json))
    (result : List (String × Json)) : Except String (List (String × Json)) :=
  result.foldlM (fun acc kv => mergeEntry acc kv.1 kv.2) acc

/-- index.ts lines 577-590: `results.reduce(...)` over all extraction
task results (per-page tasks in page order, then the full-document
task). -/
def mergeResults (results : List (List (String × Json))) :
    Except String (List (String × Json)) :=
  results.foldlM mergeResult []

/-! ## Final output assembly (index.ts lines 178-182, 282, 401-403,
653-683). -/

/-- Summary of the returned `ZeroxOutput` (lines 668-682).  The `ocr`
and `extracted` components are `{successful, failed}` counts or
`null`. -/
structure Summary where
  totalPages : Nat
  ocr : Option (Nat × Nat)
  extracted : Option (Nat × Nat)
deriving Repr, DecidableEq, Inhabited

/-- The parts of the returned `ZeroxOutput` the claims are about. -/
structure ZeroxOutput where
  pages : List Page
  extracted : Option (List (String × Json))
  summary : Summary
deriving Repr, Inhabited

/-- The `pages` variable after the OCR stage: the structured-data pages
when the input is a spreadsheet-like file (lines 178-182); otherwise the
OCR pages, or still `[]` when OCR was skipped because `extractOnly`
(lines 282, 401-403). -/
def pipelinePages (structuredPages : Option (List Page)) (extractOnly : Bool)
    (ocrPages : List Page) : List Page :=
  match structuredPages with
  | some ps => ps
  | none => if extractOnly then [] else ocrPages

/-- index.ts lines 653-683: the returned object.  `extracted` is `null`
unless a schema was given; `summary.ocr` is `null` when
`extractOnly`. -/
def assembleOutput (extractOnly schemaPresent : Bool) (pages : List Page)
    (ptc : PagesToConvert) (ocrCounts : Nat × Nat)
    (extractedObj : List (String × Json)) (extractionCounts : Nat × Nat) :
    ZeroxOutput :=
  { pages := formattedPages ptc pages
    extracted := if schemaPresent then some extractedObj else none
    summary := { totalPages := pages.length
                 ocr := if !extractOnly then some ocrCounts else none
                 extracted := if schemaPresent then some extractionCounts
                   else none } }

/-- The tail of a successful `zerox` run, from the post-OCR `pages`
value to the returned object: merge the extraction task results (when a
schema is present) and assemble the output. -/
def zeroxRun (structuredPages : Option (List Page))
    (extractOnly schemaPresent : Bool) (ocrPages : List Page)
    (ptc : PagesToConvert) (ocrCounts extractionCounts : Nat × Nat)
    (extractionResults : List (List (String × Json))) :
    Except String ZeroxOutput :=
  let pages := pipelinePages structuredPages extractOnly ocrPages
  if schemaPresent then
    match mergeResults extractionResults with
    | .error e => .error e
    | .ok ext =>
      .ok (assembleOutput extractOnly true pages ptc ocrCounts ext
        extractionCounts)
  else
    .ok (assembleOutput extractOnly false pages ptc ocrCounts []
      extractionCounts)

/-- Claim C5 as stated: every `extractOnly` run returns pages whose
content is empty, a fully populated `extracted`, and `summary.ocr =
null`. -/
def specC5Claim : Prop :=
  ∀ (structuredPages : Option (List Page)) (ocrPages : List Page)
    (ptc : PagesToConvert) (ocrCounts extractionCounts : Nat × Nat)
    (extractionResults : List (List (String × Json))) (out : ZeroxOutput),
    zeroxRun structuredPages true true ocrPages ptc ocrCounts
        extractionCounts extractionResults = .ok out →
    (∀ pg ∈ out.pages, pg.content = "") ∧
      (∀ ext, mergeResults extractionResults = .ok ext →
        out.extracted = some ext) ∧
      out.summary.ocr = none

/-! ## Theorems -/

theorem string_ne_isEmpty_false {s : String} (h : s ≠ "") : s.isEmpty = false := by
  cases hh : s.isEmpty
  · rfl
  · exact absurd ((String.isEmpty_iff s).mp hh) h

/-- Validation failure happens before any provisioning: no temp
directory, no scheduler, on such an exit. -/
theorem zeroxExec_validation_failure (cl co sif : Bool) (bo : Option Bool) :
    zeroxExec cl co true sif bo =
      { tempDirExists := false, schedulerActive := false, threw := true } := rfl

theorem zeroxValidate_error_iff (args : ZeroxArgs) :
    (∃ e, zeroxValidate args = .error e) ↔
      ((applyOpenaiKeyOverride args).2.all (fun c => c.isEmpty) = true ∨
        (args.filePath.getD "").isEmpty = true ∨
        (args.enableHybridExtraction &&
          (args.directImageExtraction || args.extractOnly)) = true ∨
        ((args.enableHybridExtraction || args.extractOnly) &&
          !args.schema.isSome) = true ∨
        (args.extractOnly && args.maintainFormat) = true) := by
  unfold zeroxValidate
  rcases applyOpenaiKeyOverride args with ⟨mp, creds⟩
  simp only
  split
  · simp_all
  · split
    · simp_all
    · split
      · simp_all
      · split
        · rename_i h1 h2 h3 h4
          simp only [Bool.and_eq_true] at h4
          simp_all
        · split
          · rename_i h1 h2 h3 h4 h5
            simp only [Bool.and_eq_true] at h5
            simp_all
          · split
            · simp_all
            · rename_i h1 h2 h3 h4 h5 h6
              simp only [Bool.and_eq_true, Bool.or_eq_true] at h4 h5 h6 ⊢
              constructor
              · rintro ⟨e, he⟩
                exact absurd he (by simp)
              · rintro (h | h | h | h | h) <;> simp_all

theorem zeroxValidate_ok_extractOnly (args : ZeroxArgs)
    (cfg : EffectiveConfig) (h : zeroxValidate args = .ok cfg)
    (hx : args.extractOnly = true) : cfg.directImageExtraction = true := by
  unfold zeroxValidate at h
  split at h
  split at h
  · exact Except.noConfusion h
  split at h
  · exact Except.noConfusion h
  split at h
  · exact Except.noConfusion h
  split at h
  · exact Except.noConfusion h
  split at h
  · exact Except.noConfusion h
  split at h
  · exact Except.noConfusion h
  simp only [Except.ok.injEq] at h
  rw [← h]
  simp [hx]

/-- C4: `zerox` throws synchronously, before any resource provisioning,
exactly when one of the five validator conditions holds (judged on the
effective, post-override credentials), and `extractOnly = true` forces
`directImageExtraction = true` in the effective configuration. -/
theorem zerox_validator_characterization (args : ZeroxArgs) :
    ((∃ e, zeroxValidate args = .error e) ↔
      ((applyOpenaiKeyOverride args).2.all (fun c => c.isEmpty) = true ∨
        (args.filePath.getD "").isEmpty = true ∨
        (args.enableHybridExtraction &&
          (args.directImageExtraction || args.extractOnly)) = true ∨
        ((args.enableHybridExtraction || args.extractOnly) &&
          !args.schema.isSome) = true ∨
        (args.extractOnly && args.maintainFormat) = true)) ∧
    (∀ cfg, zeroxValidate args = .ok cfg → args.extractOnly = true →
      cfg.directImageExtraction = true) ∧
    (∀ cl co sif bo, zeroxExec cl co true sif bo =
      { tempDirExists := false, schedulerActive := false, threw := true }) :=
  ⟨zeroxValidate_error_iff args,
    fun cfg h hx => zeroxValidate_ok_extractOnly args cfg h hx,
    fun cl co sif bo => zeroxExec_validation_failure cl co sif bo⟩

/-- Witness for C4 at a concrete argument bundle: `extractOnly` without
a schema throws, and adding the schema makes the run pass with
`directImageExtraction` promoted. -/
theorem zerox_validator_characterization_witness :
    (∃ e, zeroxValidate { credentials := ["k"], filePath := some "f", extractOnly := true } = .error e) ∧
    ∀ cfg, zeroxValidate { credentials := ["k"], filePath := some "f", extractOnly := true, schema := some (.obj []) } = .ok cfg →
      cfg.directImageExtraction = true := by
  constructor
  · exact (zerox_validator_characterization { credentials := ["k"], filePath := some "f", extractOnly := true }).1.mpr
      (by right; right; right; left; decide)
  · intro cfg h
    exact (zerox_validator_characterization { credentials := ["k"], filePath := some "f", extractOnly := true, schema := some (.obj []) }).2.1 cfg h rfl

/-- C10: a non-empty `openaiAPIKey` overrides the caller configuration
before validation: the provider becomes OPENAI, the credentials become
the singleton `{ apiKey: openaiAPIKey }`, and the missing-credentials
check can no longer fire. -/
theorem zerox_openai_key_override (args : ZeroxArgs)
    (h : args.openaiAPIKey ≠ "") :
    applyOpenaiKeyOverride args = (ModelProvider.openai, [args.openaiAPIKey]) ∧
    zeroxValidate args ≠ .error "Missing credentials" ∧
    ∀ cfg, zeroxValidate args = .ok cfg →
      cfg.modelProvider = .openai ∧ cfg.credentials = [args.openaiAPIKey] := by
  have hne : args.openaiAPIKey.isEmpty = false := string_ne_isEmpty_false h
  have hov : applyOpenaiKeyOverride args =
      (ModelProvider.openai, [args.openaiAPIKey]) := by
    unfold applyOpenaiKeyOverride
    simp [hne]
  have hall : ([args.openaiAPIKey].all
      fun credential => credential.isEmpty) = false := by
    simp [hne]
  refine ⟨hov, ?_, ?_⟩
  · unfold zeroxValidate
    simp only [hov]
    rw [hall]
    simp only [Bool.false_eq_true, if_false]
    split
    · simp
    split
    · simp
    split
    · simp
    split
    · simp
    split <;> simp
  · intro cfg hcfg
    unfold zeroxValidate at hcfg
    simp only [hov] at hcfg
    rw [hall] at hcfg
    simp only [Bool.false_eq_true, if_false] at hcfg
    split at hcfg
    · exact Except.noConfusion hcfg
    split at hcfg
    · exact Except.noConfusion hcfg
    split at hcfg
    · exact Except.noConfusion hcfg
    split at hcfg
    · exact Except.noConfusion hcfg
    split at hcfg
    · exact Except.noConfusion hcfg
    simp only [Except.ok.injEq] at hcfg
    rw [← hcfg]
    exact ⟨rfl, rfl⟩

/-- C10 witness: a concrete run passing empty credentials, a Google
provider and a non-empty `openaiAPIKey`. -/
theorem zerox_openai_key_override_witness :
    applyOpenaiKeyOverride { credentials := [""], modelProvider := .google, openaiAPIKey := "sk-test", filePath := some "f" } = (ModelProvider.openai, ["sk-test"]) ∧
    ∀ cfg, zeroxValidate { credentials := [""], modelProvider := .google, openaiAPIKey := "sk-test", filePath := some "f" } = .ok cfg →
      cfg.modelProvider = .openai ∧ cfg.credentials = ["sk-test"] := by
  have h := zerox_openai_key_override { credentials := [""], modelProvider := .google, openaiAPIKey := "sk-test", filePath := some "f" } (by decide)
  exact ⟨h.1, h.2.2⟩

/-- C9 counterexample: when `addWorkersToTesseractScheduler` rejects
(after the scheduler was created, before the `try` block is entered),
`zerox` throws without running the release block, so the scheduler is
never terminated on that exit path. -/
theorem zeroxExec_scheduler_leak : ¬ specC9Claim := by
  intro h
  have := (h true false true none).2 rfl
  exact absurd this (by decide)

/-- C9 amended: with `cleanup = true` the temp directory never exists
once `zerox` returns or throws, on every exit path; the scheduler is
terminated on every exit path except a failure during scheduler worker
start-up, which happens before the guarded block is entered. -/
theorem zeroxExec_cleanup_guarantee (co vf sif : Bool) (bo : Option Bool) :
    (zeroxExec true co vf sif bo).tempDirExists = false ∧
    (zeroxExec true co vf sif bo).schedulerActive = (!vf && (co && sif)) := by
  cases vf <;> cases co <;> cases sif <;> rcases bo with _ | b <;>
    first
      | exact ⟨rfl, rfl⟩
      | (cases b <;> exact ⟨rfl, rfl⟩)

/-- C8 counterexample: `"o4-mini"` matches the claimed prefix family,
but in EXTRACTION mode the adapter checks only `o1`/`o3`/`gpt-5`, so
`max_tokens` is passed through untranslated. -/
theorem openAITranslateParams_counterexample : ¬ specC8Claim := by
  intro h
  have := h .extraction "o4-mini"
    { max_tokens := some 1024, max_completion_tokens := none }
    (by decide) (by decide)
  exact absurd this.1 (by decide)

/-- C8 amended: with a non-zero `max_tokens` present, the OCR path
translates it to `max_completion_tokens` exactly for models matching
`o`/`o3`/`o4`/`gpt-5`, while the EXTRACTION path does so exactly for
models matching `o1`/`o3`/`gpt-5`; all other models (and the other
parameter shapes) pass the parameters through unchanged. -/
theorem openAITranslateParams_characterization (model : String)
    (params : SnakeParams) (v : Int)
    (hmt : params.max_tokens = some v) (hv : v ≠ 0) :
    openAITranslateParams .ocr model params =
      (if ocrModelCheck model then
        { max_tokens := none, max_completion_tokens := some v }
      else params) ∧
    openAITranslateParams .extraction model params =
      (if extractionModelCheck model then
        { max_tokens := none, max_completion_tokens := some v }
      else params) := by
  have hxt : jsTruthyInt (some v) = true := by
    simp [jsTruthyInt, hv]
  constructor <;>
    simp only [openAITranslateParams, translateMaxTokens, hmt, hxt,
      Bool.and_true]

/-- C8 amended witness at `"o4-mini"`: translated in OCR mode, passed
through in EXTRACTION mode. -/
theorem openAITranslateParams_characterization_witness :
    openAITranslateParams .ocr "o4-mini" { max_tokens := some 1024 } =
      { max_tokens := none, max_completion_tokens := some 1024 } ∧
    openAITranslateParams .extraction "o4-mini" { max_tokens := some 1024 } =
      { max_tokens := some 1024 } := by
  have h := openAITranslateParams_characterization "o4-mini"
    { max_tokens := some 1024 } 1024 rfl (by decide)
  constructor
  · rw [h.1, if_pos (by decide)]
  · rw [h.2, if_neg (by decide)]

/-- C7 counterexample: the OpenAI adapter does not put the image parts
first — its message list starts with the system prompt (then the
consistency prompt, then the user message holding the images). -/
theorem openAIBuildOCRMessages_counterexample :
    ¬ ∃ imgs rest, openAIBuildOCRMessages "S" none true "P" ["I"] =
      OpenAIMessage.userImages imgs :: rest := by
  rintro ⟨imgs, rest, h⟩
  simp only [openAIBuildOCRMessages, openAISystemPrompt,
    show "P".isEmpty = false from rfl, Bool.not_false, Bool.and_self,
    if_true, List.cons_append, List.nil_append, List.cons.injEq] at h
  exact OpenAIMessage.noConfusion h.1

/-- C7 amended: the Google adapter sends the image parts first, then
the optional consistency prompt (the system instruction travels
separately); the OpenAI adapter sends the system prompt first, then the
optional consistency prompt, then one user message with all image
parts. -/
theorem buildOCRMessages_order (spb : String) (prompt : Option String)
    (mf : Bool) (pp : String) (bufs : List String) :
    (googleBuildOCRParts mf pp bufs).take bufs.length =
      bufs.map GooglePart.inlineImage ∧
    (googleBuildOCRParts mf pp bufs).drop bufs.length =
      (if mf && !pp.isEmpty then
        [GooglePart.text (CONSISTENCY_PROMPT pp)] else []) ∧
    openAIBuildOCRMessages spb prompt mf pp bufs =
      [OpenAIMessage.system (openAISystemPrompt spb prompt)] ++
        (if mf && !pp.isEmpty then
          [OpenAIMessage.system (CONSISTENCY_PROMPT pp)] else []) ++
        [OpenAIMessage.userImages (bufs.map dataUrl)] := by
  refine ⟨?_, ?_, rfl⟩
  · simp [googleBuildOCRParts]
  · simp [googleBuildOCRParts]

/-! ### C1: page order and page numbering -/

theorem applyWrites_length (outcomes : Nat → Page) :
    ∀ (order : List Nat) (arr : List (Option Page)),
      (applyWrites outcomes order arr).length = arr.length := by
  intro order
  induction order with
  | nil => intro arr; rfl
  | cons i rest ih =>
    intro arr
    rw [applyWrites, ih, List.length_set]

theorem applyWrites_getElem? (outcomes : Nat → Page) :
    ∀ (order : List Nat) (arr : List (Option Page)) (j : Nat),
      (applyWrites outcomes order arr)[j]? =
        if j ∈ order ∧ j < arr.length then some (some (outcomes j))
        else arr[j]? := by
  intro order
  induction order with
  | nil => intro arr j; simp [applyWrites]
  | cons i rest ih =>
    intro arr j
    rw [applyWrites, ih, List.length_set]
    by_cases hj : j < arr.length
    · by_cases hrest : j ∈ rest
      · rw [if_pos ⟨hrest, hj⟩, if_pos ⟨List.mem_cons_of_mem i hrest, hj⟩]
      · rw [if_neg (fun hc => hrest hc.1)]
        by_cases hij : j = i
        · subst hij
          rw [List.getElem?_set_self hj,
            if_pos ⟨List.mem_cons_self j rest, hj⟩]
        · rw [List.getElem?_set_ne (Ne.symm hij),
            if_neg (fun hc => (List.mem_cons.mp hc.1).elim hij hrest)]
    · have hlen : arr.length ≤ j := le_of_not_lt hj
      rw [if_neg (fun hc => hj hc.2), if_neg (fun hc => hj hc.2),
        List.getElem?_eq_none (by simpa using hlen),
        List.getElem?_eq_none hlen]

theorem runConcurrentOCR_completion_order_irrelevant (n : Nat)
    (outcomes : Nat → Page) (order : List Nat)
    (hcov : ∀ j, j < n → j ∈ order) :
    runConcurrentOCR n outcomes order =
      (List.range n).map (fun i => some (outcomes i)) := by
  apply List.ext_getElem?
  intro j
  rw [runConcurrentOCR, applyWrites_getElem?]
  by_cases hj : j < n
  · rw [if_pos ⟨hcov j hj, by simpa using hj⟩, List.getElem?_map,
      List.getElem?_range hj]
    rfl
  · have hlen : n ≤ j := le_of_not_lt hj
    rw [if_neg (fun hc => hj (by simpa using hc.2)),
      List.getElem?_eq_none (by simpa using hlen),
      List.getElem?_eq_none (by simpa using hlen)]

theorem mapPagesIdx_getElem? (f : Nat → Page → Page) :
    ∀ (ps : List Page) (s i : Nat),
      (mapPagesIdx f s ps)[i]? = (ps[i]?).map (f (s + i)) := by
  intro ps
  induction ps with
  | nil => intro s i; simp [mapPagesIdx]
  | cons p rest ih =>
    intro s i
    cases i with
    | zero => simp [mapPagesIdx]
    | succ i =>
      have hunfold : mapPagesIdx f s (p :: rest) =
          f s p :: mapPagesIdx f (s + 1) rest := rfl
      rw [hunfold, List.getElem?_cons_succ, ih (s + 1) i,
        List.getElem?_cons_succ]
      have harith : s + 1 + i = s + (i + 1) := by omega
      rw [harith]

theorem formattedPages_getElem? (ptc : PagesToConvert) (pages : List Page)
    (i : Nat) :
    (formattedPages ptc pages)[i]? =
      (pages[i]?).map (fun p => { p with page := correctPageNumber ptc i }) := by
  rw [formattedPages, mapPagesIdx_getElem?]
  simp

theorem formattedPages_page_getElem? (ptc : PagesToConvert)
    (pages : List Page) (i : Nat) (hi : i < pages.length) :
    ((formattedPages ptc pages).map Page.page)[i]? =
      some (correctPageNumber ptc i) := by
  rw [List.getElem?_map, formattedPages_getElem?,
    List.getElem?_eq_getElem hi]
  rfl

theorem formattedPages_map_page_length (ptc : PagesToConvert)
    (pages : List Page) :
    ((formattedPages ptc pages).map Page.page).length = pages.length := by
  rw [List.length_map, formattedPages]
  generalize 0 = s
  induction pages generalizing s with
  | nil => rfl
  | cons p rest ih => simp [mapPagesIdx, ih]

theorem formattedPages_page_getElem (ptc : PagesToConvert)
    (pages : List Page) (i : Nat)
    (hi : i < ((formattedPages ptc pages).map Page.page).length) :
    ((formattedPages ptc pages).map Page.page)[i] =
      correctPageNumber ptc i := by
  have hi' : i < pages.length := by
    rwa [formattedPages_map_page_length] at hi
  have := formattedPages_page_getElem? ptc pages i hi'
  rw [List.getElem?_eq_getElem hi] at this
  exact Option.some.inj this

/-- C1: (a) the concurrent OCR loop writes by index, so any completion
order that runs every task produces the same `pages` array; (b)
`pages[i].page` is `i + 1` when converting all pages, the i-th element
of the array when `pagesToConvertAsImages` is an array, and the scalar
itself when it is a single number; (c) under the sort and range filter
the source applies to the array form, the returned pages are in
ascending page-number order (and trivially so in the other two
forms). -/
theorem zerox_pages_order (n : Nat) (outcomes : Nat → Page)
    (order₁ order₂ : List Nat)
    (h₁ : ∀ j, j < n → j ∈ order₁) (h₂ : ∀ j, j < n → j ∈ order₂)
    (pages : List Page) :
    runConcurrentOCR n outcomes order₁ = runConcurrentOCR n outcomes order₂ ∧
    (∀ i, i < pages.length →
      ((formattedPages .all pages)[i]?.map Page.page) =
        some ((i : Int) + 1)) ∧
    (∀ (l : List Int) (i : Nat), i < pages.length → i < l.length →
      ((formattedPages (.list l) pages)[i]?.map Page.page) = l[i]?) ∧
    (∀ (m : Int) (i : Nat), i < pages.length →
      ((formattedPages (.single m) pages)[i]?.map Page.page) = some m) ∧
    ((formattedPages .all pages).map Page.page).Sorted (· ≤ ·) ∧
    (∀ (lRaw : List Int) (total : Int) (l : List Int),
      preparePagesToConvert (.list lRaw) total = .list l →
      pages.length ≤ l.length →
      ((formattedPages (.list l) pages).map Page.page).Sorted (· ≤ ·)) ∧
    (∀ m : Int,
      ((formattedPages (.single m) pages).map Page.page).Sorted (· ≤ ·)) := by
  refine ⟨?_, ?_, ?_, ?_, ?_, ?_, ?_⟩
  · rw [runConcurrentOCR_completion_order_irrelevant n outcomes order₁ h₁,
      runConcurrentOCR_completion_order_irrelevant n outcomes order₂ h₂]
  · intro i hi
    rw [formattedPages_getElem?, List.getElem?_eq_getElem hi]
    rfl
  · intro l i hi hl
    rw [formattedPages_getElem?, List.getElem?_eq_getElem hi]
    simp [correctPageNumber, List.getElem?_eq_getElem hl]
  · intro m i hi
    rw [formattedPages_getElem?, List.getElem?_eq_getElem hi]
    rfl
  · rw [List.Sorted, List.pairwise_iff_getElem]
    intro i j hi hj hij
    rw [formattedPages_page_getElem, formattedPages_page_getElem]
    simp only [correctPageNumber]
    omega
  · intro lRaw total l hprep hlen
    have hl : l = (lRaw.insertionSort (· ≤ ·)).filter
        (fun p => 0 < p && p ≤ total) := by
      simpa [preparePagesToConvert] using hprep.symm
    have hsort : l.Pairwise (· ≤ ·) := by
      rw [hl]
      exact List.Pairwise.filter _ (List.sorted_insertionSort (· ≤ ·) lRaw)
    rw [List.Sorted, List.pairwise_iff_getElem]
    intro i j hi hj hij
    rw [formattedPages_page_getElem, formattedPages_page_getElem]
    have hi' : i < pages.length := by
      rwa [formattedPages_map_page_length] at hi
    have hj' : j < pages.length := by
      rwa [formattedPages_map_page_length] at hj
    have hil : i < l.length := lt_of_lt_of_le hi' hlen
    have hjl : j < l.length := lt_of_lt_of_le hj' hlen
    simp only [correctPageNumber, List.getD_eq_getElem l 0 hil,
      List.getD_eq_getElem l 0 hjl]
    exact List.pairwise_iff_getElem.mp hsort i j hil hjl hij
  · intro m
    rw [List.Sorted, List.pairwise_iff_getElem]
    intro i j hi hj hij
    rw [formattedPages_page_getElem, formattedPages_page_getElem]
    simp [correctPageNumber]

/-- C1 witness: three tasks completing in order `[2, 0, 1]` produce the
same array as in-order completion; concrete page numbering for the
array form, the all-pages form, and sortedness of the result. -/
theorem zerox_pages_order_witness :
    runConcurrentOCR 3 (fun i => successPage (i + 1) "x") [2, 0, 1] =
      runConcurrentOCR 3 (fun i => successPage (i + 1) "x") [0, 1, 2] ∧
    ((formattedPages (.list [2, 5, 7]) [successPage 1 "a", successPage 2 "b", successPage 3 "c"])[1]?.map Page.page) = [(2 : Int), 5, 7][1]? ∧
    ((formattedPages .all [successPage 1 "a", successPage 2 "b"])[0]?.map Page.page) = some 1 ∧
    ((formattedPages (.list [2, 5, 7]) [successPage 1 "a", successPage 2 "b", successPage 3 "c"]).map Page.page).Sorted (· ≤ ·) := by
  have h3 := zerox_pages_order 3 (fun i => successPage (i + 1) "x")
    [2, 0, 1] [0, 1, 2] (by decide) (by decide)
    [successPage 1 "a", successPage 2 "b", successPage 3 "c"]
  have h2 := zerox_pages_order 3 (fun i => successPage (i + 1) "x")
    [2, 0, 1] [0, 1, 2] (by decide) (by decide)
    [successPage 1 "a", successPage 2 "b"]
  refine ⟨h3.1, h3.2.2.1 [2, 5, 7] 1 (by decide) (by decide),
    h2.2.1 0 (by decide), ?_⟩
  exact h3.2.2.2.2.2.1 [7, 2, 5, 9] 8 [2, 5, 7] (by decide) (by decide)

/-! ### C2 and C3: the sequential maintainFormat loop -/

theorem runMFAux_ok_trace (em : ErrorMode) (c : String)
    (rest : List OCROutcome) (k : Nat) (prior : String) :
    (runMFAux em (.ok c :: rest) k prior).trace =
      Event.callStart k prior :: Event.callEnd k .success ::
        (runMFAux em rest (k + 1) c).trace := rfl

theorem runMFAux_fail_trace (em : ErrorMode) (e : String)
    (rest : List OCROutcome) (k : Nat) (prior : String) :
    (runMFAux em (.fail e :: rest) k prior).trace =
      [Event.callStart k prior, Event.callEnd k .error] := by
  cases em <;> rfl

theorem runMFAux_callStart_ge (em : ErrorMode) :
    ∀ (os : List OCROutcome) (k : Nat) (prior : String) (m : Nat) (p : String),
      Event.callStart m p ∈ (runMFAux em os k prior).trace → k ≤ m := by
  intro os
  induction os with
  | nil => intro k prior m p h; simp [runMFAux] at h
  | cons o rest ih =>
    intro k prior m p h
    cases o with
    | ok c =>
      rw [runMFAux_ok_trace] at h
      rcases List.mem_cons.mp h with h | h
      · injection h with h1 h2
        omega
      rcases List.mem_cons.mp h with h | h
      · exact Event.noConfusion h
      · exact Nat.le_of_succ_le (ih (k + 1) c m p h)
    | fail e =>
      rw [runMFAux_fail_trace] at h
      rcases List.mem_cons.mp h with h | h
      · injection h with h1 h2
        omega
      rcases List.mem_cons.mp h with h | h
      · exact Event.noConfusion h
      · exact absurd h (List.not_mem_nil _)

theorem runMFAux_callStart_self (em : ErrorMode) :
    ∀ (os : List OCROutcome) (k : Nat) (prior : String) (p : String),
      Event.callStart k p ∈ (runMFAux em os k prior).trace → p = prior := by
  intro os
  induction os with
  | nil => intro k prior p h; simp [runMFAux] at h
  | cons o rest ih =>
    intro k prior p h
    cases o with
    | ok c =>
      rw [runMFAux_ok_trace] at h
      rcases List.mem_cons.mp h with h | h
      · injection h with h1 h2
      rcases List.mem_cons.mp h with h | h
      · exact Event.noConfusion h
      · exact absurd (runMFAux_callStart_ge em rest (k + 1) c k p h)
          (by omega)
    | fail e =>
      rw [runMFAux_fail_trace] at h
      rcases List.mem_cons.mp h with h | h
      · injection h with h1 h2
      rcases List.mem_cons.mp h with h | h
      · exact Event.noConfusion h
      · exact absurd h (List.not_mem_nil _)

theorem runMFAux_prior_content (em : ErrorMode) :
    ∀ (os : List OCROutcome) (k : Nat) (prior : String) (j : Nat)
      (c p : String), os[j]? = some (.ok c) →
      Event.callStart (k + j + 1) p ∈ (runMFAux em os k prior).trace →
      p = c := by
  intro os
  induction os with
  | nil => intro k prior j c p hok _; simp at hok
  | cons o rest ih =>
    intro k prior j c p hok hmem
    cases j with
    | zero =>
      have ho : o = .ok c := by simpa using hok
      subst ho
      simp only [runMFAux, List.mem_cons] at hmem
      rcases hmem with h | h | h
      · injection h with h1 h2
        omega
      · exact Event.noConfusion h
      · exact runMFAux_callStart_self em rest (k + 1) c p (by
          have heq : k + 0 + 1 = k + 1 := by omega
          rwa [heq] at h)
    | succ j =>
      have hrest : rest[j]? = some (.ok c) := by simpa using hok
      cases o with
      | ok c0 =>
        simp only [runMFAux, List.mem_cons] at hmem
        rcases hmem with h | h | h
        · injection h with h1 h2
          omega
        · exact Event.noConfusion h
        · refine ih (k + 1) c0 j c p hrest ?_
          rw [show k + 1 + j + 1 = k + (j + 1) + 1 from by omega]
          exact h
      | fail e =>
        cases em <;>
          · simp only [runMFAux, List.mem_cons, List.not_mem_nil,
              or_false] at hmem
            rcases hmem with h | h
            · injection h with h1 h2
              omega
            · exact Event.noConfusion h

theorem runMFAux_seq (em : ErrorMode) :
    ∀ (os : List OCROutcome) (k : Nat) (prior : String) (m : Nat)
      (p : String), k ≤ m →
      Event.callStart (m + 1) p ∈ (runMFAux em os k prior).trace →
      ∃ (i j : Nat), i < j ∧
        (runMFAux em os k prior).trace[i]? =
          some (Event.callEnd m PageStatus.success) ∧
        (runMFAux em os k prior).trace[j]? =
          some (Event.callStart (m + 1) p) := by
  intro os
  induction os with
  | nil => intro k prior m p _ h; simp [runMFAux] at h
  | cons o rest ih =>
    intro k prior m p hkm hmem
    cases o with
    | ok c =>
      have htr : (runMFAux em (.ok c :: rest) k prior).trace =
          Event.callStart k prior :: Event.callEnd k .success ::
            (runMFAux em rest (k + 1) c).trace := rfl
      rw [htr] at hmem ⊢
      rcases List.mem_cons.mp hmem with h | hmem2
      · injection h with h1 h2
        omega
      rcases List.mem_cons.mp hmem2 with h | hmem3
      · exact Event.noConfusion h
      by_cases hmk : m = k
      · subst hmk
        obtain ⟨jj, hjj⟩ := List.mem_iff_getElem?.mp hmem3
        refine ⟨1, jj + 2, by omega, by simp, ?_⟩
        simpa using hjj
      · obtain ⟨i, j, hij, hEnd, hStart⟩ :=
          ih (k + 1) c m p (by omega) hmem3
        refine ⟨i + 2, j + 2, by omega, ?_, ?_⟩
        · simpa using hEnd
        · simpa using hStart
    | fail e =>
      cases em <;>
        · simp only [runMFAux, List.mem_cons, List.not_mem_nil,
            or_false] at hmem
          rcases hmem with h | h
          · injection h with h1 h2
            omega
          · exact Event.noConfusion h

theorem runMFAux_halt (em : ErrorMode) :
    ∀ (os : List OCROutcome) (k : Nat) (prior : String) (j : Nat)
      (pg : Page), (runMFAux em os k prior).pages[j]? = some pg →
      pg.status = .error →
      ∀ m p, Event.callStart m p ∈ (runMFAux em os k prior).trace →
        m ≤ k + j := by
  intro os
  induction os with
  | nil => intro k prior j pg hpg; simp [runMFAux] at hpg
  | cons o rest ih =>
    intro k prior j pg hpg hst m p hmem
    cases o with
    | ok c =>
      cases j with
      | zero =>
        have hpe : successPage k c = pg := by
          simpa [runMFAux] using hpg
        rw [← hpe] at hst
        exact PageStatus.noConfusion hst
      | succ j =>
        have hpg2 : (runMFAux em rest (k + 1) c).pages[j]? = some pg := by
          simpa [runMFAux] using hpg
        simp only [runMFAux, List.mem_cons] at hmem
        rcases hmem with h | h | h
        · injection h with h1 h2
          omega
        · exact Event.noConfusion h
        · have := ih (k + 1) c j pg hpg2 hst m p h
          omega
    | fail e =>
      cases em with
      | throwMode => simp [runMFAux] at hpg
      | ignoreMode =>
        cases j with
        | zero =>
          simp only [runMFAux, List.mem_cons, List.not_mem_nil,
            or_false] at hmem
          rcases hmem with h | h
          · injection h with h1 h2
            omega
          · exact Event.noConfusion h
        | succ j => simp [runMFAux] at hpg

/-- C2: in maintainFormat mode (a) the call for page `m + 1` appears in
the trace only after the call for page `m` reached `SUCCESS`; (b) a
page whose LLM call succeeded with content `c` has `c` as the
`priorPage` of the next page's call; (c) once a page enters the `pages`
array with `status = ERROR`, no call for any later page appears in the
trace. -/
theorem zerox_maintain_format_sequential (em : ErrorMode)
    (outcomes : List OCROutcome) :
    (∀ m p, 1 ≤ m →
      Event.callStart (m + 1) p ∈ (runMaintainFormat em outcomes).trace →
      ∃ (i j : Nat), i < j ∧
        (runMaintainFormat em outcomes).trace[i]? =
          some (Event.callEnd m PageStatus.success) ∧
        (runMaintainFormat em outcomes).trace[j]? =
          some (Event.callStart (m + 1) p)) ∧
    (∀ j c p, outcomes[j]? = some (.ok c) →
      Event.callStart (j + 2) p ∈ (runMaintainFormat em outcomes).trace →
      p = c) ∧
    (∀ j pg, (runMaintainFormat em outcomes).pages[j]? = some pg →
      pg.status = .error →
      ∀ m p, Event.callStart m p ∈ (runMaintainFormat em outcomes).trace →
        m ≤ j + 1) := by
  refine ⟨?_, ?_, ?_⟩
  · intro m p hm hmem
    exact runMFAux_seq em outcomes 1 "" m p hm hmem
  · intro j c p hok hmem
    exact runMFAux_prior_content em outcomes 1 "" j c p hok (by
      have : 1 + j + 1 = j + 2 := by omega
      rwa [this])
  · intro j pg hpg hst m p hmem
    have := runMFAux_halt em outcomes 1 "" j pg hpg hst m p hmem
    omega

/-- C2 witness: a concrete IGNORE-mode run `[ok "A", fail "boom",
ok "C"]` — page 2 starts only after page 1 succeeded, its prior page is
`"A"`, and no page beyond the failing page 2 is ever called. -/
theorem zerox_maintain_format_sequential_witness :
    (∃ (i j : Nat), i < j ∧
      (runMaintainFormat .ignoreMode [.ok "A", .fail "boom", .ok "C"]).trace[i]? =
        some (Event.callEnd 1 PageStatus.success) ∧
      (runMaintainFormat .ignoreMode [.ok "A", .fail "boom", .ok "C"]).trace[j]? =
        some (Event.callStart 2 "A")) ∧
    (∀ m p, Event.callStart m p ∈
      (runMaintainFormat .ignoreMode [.ok "A", .fail "boom", .ok "C"]).trace →
      m ≤ 2) := by
  have h := zerox_maintain_format_sequential .ignoreMode
    [.ok "A", .fail "boom", .ok "C"]
  constructor
  · exact h.1 1 "A" (by decide) (by decide)
  · intro m p hmem
    exact h.2.2 1 (errorPage 2 "boom") (by decide) (by decide) m p hmem

/-- C3: when page `j + 1` succeeded with non-empty content `c`, the
OpenAI message list of the following call (page `j + 2`) contains the
consistency prompt embedding `c` verbatim. -/
theorem zerox_consistency_prompt_verbatim (em : ErrorMode)
    (outcomes : List OCROutcome) (j : Nat) (c p : String) (spb : String)
    (prompt : Option String) (buffers : List String)
    (hok : outcomes[j]? = some (.ok c)) (hne : c ≠ "")
    (hmem : Event.callStart (j + 2) p ∈
      (runMaintainFormat em outcomes).trace) :
    ∃ pre suf, OpenAIMessage.system (pre ++ c ++ suf) ∈
      openAIBuildOCRMessages spb prompt true p buffers := by
  have hp : p = c := runMFAux_prior_content em outcomes 1 "" j c p hok (by
    have : 1 + j + 1 = j + 2 := by omega
    rwa [this])
  subst hp
  have hempty : p.isEmpty = false := string_ne_isEmpty_false hne
  refine ⟨"Markdown must maintain consistent formatting with the following page: \n\n \"\"\"",
    "\"\"\"", ?_⟩
  simp [openAIBuildOCRMessages, hempty, CONSISTENCY_PROMPT]

/-- C3 witness: the run `[ok "A", ok "B"]` — the second call's message
list contains `"A"` embedded in the consistency prompt. -/
theorem zerox_consistency_prompt_verbatim_witness :
    ∃ pre suf, OpenAIMessage.system (pre ++ "A" ++ suf) ∈
      openAIBuildOCRMessages "S" none true "A" ["I"] :=
  zerox_consistency_prompt_verbatim .ignoreMode [.ok "A", .ok "B"] 0 "A"
    "A" "S" none ["I"] (by decide) (by decide) (by decide)

/-! ### C5: extractOnly runs -/

/-- C5 counterexample: an `extractOnly` run over a structured-data file
(spreadsheet) keeps the sheet-derived page contents — they are not
empty, because the structured-data branch fills `pages` before the OCR
stage is skipped. -/
theorem zeroxRun_extract_only_counterexample : ¬ specC5Claim := by
  intro h
  have hrun : zeroxRun (some [{ content := "Q1", contentLength := 2, page := 1, status := .success }]) true true [] .all (0, 0) (1, 0) [] =
      .ok (assembleOutput true true [{ content := "Q1", contentLength := 2, page := 1, status := .success }] .all (0, 0) [] (1, 0)) := rfl
  have hall := (h _ _ _ _ _ _ _ hrun).1
  have hmem : ({ content := "Q1", contentLength := 2, page := 1, status := .success } : Page) ∈
      (assembleOutput true true [{ content := "Q1", contentLength := 2, page := 1, status := .success }] .all (0, 0) [] (1, 0)).pages := by
    decide
  exact absurd (hall _ hmem) (by decide)

/-- C5 amended: an `extractOnly` run returns `summary.ocr = null` and
`extracted` fully populated from the merged extraction task results;
for non-structured inputs the OCR stage is skipped entirely, so the
`pages` array is empty (hence trivially has no content), while
structured-data inputs keep their sheet-derived pages. -/
theorem zeroxRun_extract_only (structuredPages : Option (List Page))
    (ocrPages : List Page) (ptc : PagesToConvert)
    (ocrCounts extractionCounts : Nat × Nat)
    (extractionResults : List (List (String × Json)))
    (ext : List (String × Json))
    (hm : mergeResults extractionResults = .ok ext) :
    ∃ out, zeroxRun structuredPages true true ocrPages ptc ocrCounts
        extractionCounts extractionResults = .ok out ∧
      out.summary.ocr = none ∧
      out.extracted = some ext ∧
      (structuredPages = none → out.pages = []) ∧
      (∀ ps, structuredPages = some ps →
        out.pages = formattedPages ptc ps) := by
  refine ⟨assembleOutput true true
    (pipelinePages structuredPages true ocrPages) ptc ocrCounts ext
    extractionCounts, ?_, rfl, rfl, ?_, ?_⟩
  · unfold zeroxRun
    rw [hm]
    rfl
  · intro hnone
    subst hnone
    rfl
  · intro ps hsome
    subst hsome
    rfl

/-- C5 amended witness: a concrete non-structured `extractOnly` run. -/
theorem zeroxRun_extract_only_witness :
    ∃ out, zeroxRun none true true [] .all (0, 0) (1, 0) [[("total", Json.num 5)]] = .ok out ∧
      out.summary.ocr = none ∧
      out.extracted = some [("total", Json.num 5)] ∧
      out.pages = [] := by
  obtain ⟨out, hrun, hocr, hext, hnone, _⟩ :=
    zeroxRun_extract_only none [] .all (0, 0) (1, 0)
      [[("total", Json.num 5)]] [("total", Json.num 5)] rfl
  exact ⟨out, hrun, hocr, hext, hnone rfl⟩

/-! ### C6: extraction wrapping and merge -/

theorem lookupJ_setKey_self :
    ∀ (l : List (String × Json)) (k : String) (v : Json),
      lookupJ (setKey l k v) k = some v := by
  intro l k v
  induction l with
  | nil => simp [setKey, lookupJ]
  | cons kv rest ih =>
    rcases kv with ⟨k0, v0⟩
    by_cases h : k0 = k
    · subst h
      simp [setKey, lookupJ]
    · simp [setKey, lookupJ, h, ih]

theorem lookupJ_setKey_ne :
    ∀ (l : List (String × Json)) (k : String) (v : Json) (k' : String),
      k ≠ k' → lookupJ (setKey l k v) k' = lookupJ l k' := by
  intro l k v k' hne
  induction l with
  | nil => simp [setKey, lookupJ, hne]
  | cons kv rest ih =>
    rcases kv with ⟨k0, v0⟩
    by_cases h : k0 = k
    · subst h
      simp [setKey, lookupJ, hne]
    · simp [setKey, lookupJ, h, ih]

theorem setKey_setKey :
    ∀ (l : List (String × Json)) (k : String) (v w : Json),
      setKey (setKey l k v) k w = setKey l k w := by
  intro l k v w
  induction l with
  | nil => simp [setKey]
  | cons kv rest ih =>
    rcases kv with ⟨k0, v0⟩
    by_cases h : k0 = k
    · subst h
      simp [setKey]
    · simp [setKey, h, ih]

theorem lookupJ_eq_none_of_not_mem :
    ∀ (l : List (String × Json)) (k : String),
      k ∉ keysOf l → lookupJ l k = none := by
  intro l k hk
  induction l with
  | nil => rfl
  | cons kv rest ih =>
    rcases kv with ⟨k0, v0⟩
    simp only [keysOf, List.map_cons, List.mem_cons] at hk
    push_neg at hk
    have hne : k0 ≠ k := fun h => hk.1 h.symm
    simp only [lookupJ, if_neg hne]
    exact ih (by simp [keysOf, hk.2])

theorem mem_keys_of_lookupJ :
    ∀ (l : List (String × Json)) (k : String) (v : Json),
      lookupJ l k = some v → k ∈ keysOf l := by
  intro l k v h
  induction l with
  | nil => exact Option.noConfusion h
  | cons kv rest ih =>
    rcases kv with ⟨k0, v0⟩
    by_cases h0 : k0 = k
    · subst h0
      simp [keysOf]
    · rw [lookupJ, if_neg h0] at h
      simp only [keysOf, List.map_cons, List.mem_cons]
      exact Or.inr (ih h)

theorem mem_of_lookupJ :
    ∀ (l : List (String × Json)) (k : String) (v : Json),
      lookupJ l k = some v → (k, v) ∈ l := by
  intro l k v h
  induction l with
  | nil => exact Option.noConfusion h
  | cons kv rest ih =>
    rcases kv with ⟨k0, v0⟩
    by_cases h0 : k0 = k
    · subst h0
      rw [lookupJ, if_pos rfl] at h
      rw [← Option.some.inj h]
      exact List.mem_cons_self _ _
    · rw [lookupJ, if_neg h0] at h
      exact List.mem_cons_of_mem _ (ih h)

theorem lookupJ_isSome_of_mem_keys :
    ∀ (l : List (String × Json)) (k : String),
      k ∈ keysOf l → ∃ v, lookupJ l k = some v := by
  intro l k hk
  induction l with
  | nil => simp [keysOf] at hk
  | cons kv rest ih =>
    rcases kv with ⟨k0, v0⟩
    by_cases h0 : k0 = k
    · subst h0
      exact ⟨v0, by simp [lookupJ]⟩
    · simp only [keysOf, List.map_cons, List.mem_cons] at hk
      rcases hk with hk | hk
      · exact absurd hk.symm h0
      · rw [lookupJ, if_neg h0]
        exact ih (by simpa [keysOf] using hk)

theorem keysOf_setKey :
    ∀ (l : List (String × Json)) (k : String) (v : Json),
      keysOf (setKey l k v) =
        if k ∈ keysOf l then keysOf l else keysOf l ++ [k] := by
  intro l k v
  induction l with
  | nil => simp [setKey, keysOf]
  | cons kv rest ih =>
    rcases kv with ⟨k0, v0⟩
    by_cases h : k0 = k
    · subst h
      simp [setKey, keysOf]
    · have hne : ¬ k = k0 := fun hh => h hh.symm
      simp only [keysOf, List.map_cons] at ih
      simp only [setKey, if_neg h, keysOf, List.map_cons, ih,
        List.mem_cons]
      by_cases hmem : k ∈ List.map (fun kv => kv.1) rest
      · simp [hmem, hne]
      · simp [hmem, hne]

theorem mem_setKey :
    ∀ (l : List (String × Json)) (k : String) (v : Json)
      (kv : String × Json), kv ∈ setKey l k v → kv = (k, v) ∨ kv ∈ l := by
  intro l k v kv h
  induction l with
  | nil => simpa [setKey] using h
  | cons kv0 rest ih =>
    rcases kv0 with ⟨k0, v0⟩
    by_cases h0 : k0 = k
    · subst h0
      rw [setKey, if_pos rfl] at h
      rcases List.mem_cons.mp h with h | h
      · exact Or.inl h
      · exact Or.inr (List.mem_cons_of_mem _ h)
    · rw [setKey, if_neg h0] at h
      rcases List.mem_cons.mp h with h | h
      · exact Or.inr (h ▸ List.mem_cons_self _ _)
      · rcases ih h with h | h
        · exact Or.inl h
        · exact Or.inr (List.mem_cons_of_mem _ h)

theorem wrapStep_lookup_ne (n : Nat) (resp acc : List (String × Json))
    (p k : String) (hne : k ≠ p) :
    lookupJ (wrapStep n resp acc p) k = lookupJ acc k := by
  unfold wrapStep
  cases hlr : lookupJ resp p with
  | none => rfl
  | some v =>
    cases v with
    | null => rfl
    | bool b => exact lookupJ_setKey_ne acc p _ k (fun h => hne h.symm)
    | num m => exact lookupJ_setKey_ne acc p _ k (fun h => hne h.symm)
    | str s => exact lookupJ_setKey_ne acc p _ k (fun h => hne h.symm)
    | arr xs => exact lookupJ_setKey_ne acc p _ k (fun h => hne h.symm)
    | obj o => exact lookupJ_setKey_ne acc p _ k (fun h => hne h.symm)

theorem wrapStep_lookup_self (n : Nat) (resp acc : List (String × Json))
    (p : String) :
    lookupJ (wrapStep n resp acc p) p =
      (match lookupJ resp p with
       | none => lookupJ acc p
       | some .null => lookupJ acc p
       | some v =>
         some (.arr (arrOrEmpty (lookupJ acc p) ++ [wrapEntry n v]))) := by
  unfold wrapStep
  cases hlr : lookupJ resp p with
  | none => rfl
  | some v =>
    cases v with
    | null => rfl
    | bool b => rw [lookupJ_setKey_self]; rfl
    | num m => rw [lookupJ_setKey_self]; rfl
    | str s => rw [lookupJ_setKey_self]; rfl
    | arr xs => rw [lookupJ_setKey_self]; rfl
    | obj o => rw [lookupJ_setKey_self]; rfl

theorem foldl_wrapStep_lookup (n : Nat) (resp : List (String × Json)) :
    ∀ (props : List String) (acc : List (String × Json)) (k : String),
      props.Nodup →
      lookupJ (props.foldl (wrapStep n resp) acc) k =
        (if k ∈ props then
          (match lookupJ resp k with
           | none => lookupJ acc k
           | some .null => lookupJ acc k
           | some v =>
             some (.arr (arrOrEmpty (lookupJ acc k) ++ [wrapEntry n v])))
        else lookupJ acc k) := by
  intro props
  induction props with
  | nil => intro acc k _; simp
  | cons p props' ih =>
    intro acc k hnd
    rcases List.nodup_cons.mp hnd with ⟨hp, hnd'⟩
    rw [List.foldl_cons, ih _ k hnd']
    by_cases hk : k = p
    · subst hk
      rw [if_neg hp, if_pos (List.mem_cons_self k props')]
      exact wrapStep_lookup_self n resp acc k
    · rw [wrapStep_lookup_ne n resp acc p k hk]
      by_cases hkp : k ∈ props'
      · rw [if_pos hkp, if_pos (List.mem_cons_of_mem p hkp)]
      · rw [if_neg hkp,
          if_neg (fun hc => (List.mem_cons.mp hc).elim hk hkp)]

theorem wrapPerPage_lookup (props : List String) (n : Nat)
    (resp : List (String × Json)) (k : String) (hnd : props.Nodup) :
    lookupJ (wrapPerPage props n resp) k =
      (if k ∈ props then
        (match lookupJ resp k with
         | none => none
         | some .null => none
         | some v => some (.arr [wrapEntry n v]))
      else none) := by
  unfold wrapPerPage
  rw [foldl_wrapStep_lookup n resp props [] k hnd]
  by_cases hk : k ∈ props
  · rw [if_pos hk, if_pos hk]
    cases hlr : lookupJ resp k with
    | none => rfl
    | some v => cases v <;> rfl
  · rw [if_neg hk, if_neg hk]
    rfl

theorem wrapStep_good (n : Nat) (resp acc : List (String × Json))
    (p : String) ( h1 : (keysOf acc).Nodup)
    (h2 : ∀ kv ∈ acc, ∃ xs, xs ≠ [] ∧ kv.2 = Json.arr xs) :
    (keysOf (wrapStep n resp acc p)).Nodup ∧
      (∀ kv ∈ wrapStep n resp acc p,
        ∃ xs, xs ≠ [] ∧ kv.2 = Json.arr xs) := by
  have hkeys : ∀ w : Json, (keysOf (setKey acc p w)).Nodup := by
    intro w
    rw [keysOf_setKey]
    by_cases hpm : p ∈ keysOf acc
    · rw [if_pos hpm]
      exact h1
    · rw [if_neg hpm]
      refine List.Nodup.append h1 (List.nodup_singleton _) ?_
      intro a ha hb
      rw [List.mem_singleton] at hb
      subst hb
      exact hpm ha
  have hvals : ∀ (zs : List Json), zs ≠ [] →
      ∀ kv ∈ setKey acc p (Json.arr zs),
        ∃ xs, xs ≠ [] ∧ kv.2 = Json.arr xs := by
    intro zs hzs kv hkv
    rcases mem_setKey acc p (Json.arr zs) kv hkv with h | h
    · exact ⟨zs, hzs, by rw [h]⟩
    · exact h2 kv h
  unfold wrapStep
  cases hlr : lookupJ resp p with
  | none => exact ⟨h1, h2⟩
  | some v =>
    cases v with
    | null => exact ⟨h1, h2⟩
    | bool b => exact ⟨hkeys _, hvals _ (by simp)⟩
    | num m => exact ⟨hkeys _, hvals _ (by simp)⟩
    | str s => exact ⟨hkeys _, hvals _ (by simp)⟩
    | arr xs => exact ⟨hkeys _, hvals _ (by simp)⟩
    | obj o => exact ⟨hkeys _, hvals _ (by simp)⟩

theorem foldl_wrapStep_good (n : Nat) (resp : List (String × Json)) :
    ∀ (props : List String) (acc : List (String × Json)),
      (keysOf acc).Nodup →
      (∀ kv ∈ acc, ∃ xs, xs ≠ [] ∧ kv.2 = Json.arr xs) →
      (keysOf (props.foldl (wrapStep n resp) acc)).Nodup ∧
        (∀ kv ∈ props.foldl (wrapStep n resp) acc,
          ∃ xs, xs ≠ [] ∧ kv.2 = Json.arr xs) := by
  intro props
  induction props with
  | nil => intro acc h1 h2; exact ⟨h1, h2⟩
  | cons p props' ih =>
    intro acc h1 h2
    rw [List.foldl_cons]
    obtain ⟨hg1, hg2⟩ := wrapStep_good n resp acc p h1 h2
    exact ih _ hg1 hg2

theorem wrapPerPage_good (props : List String) (n : Nat)
    (resp : List (String × Json)) :
    (keysOf (wrapPerPage props n resp)).Nodup ∧
      (∀ kv ∈ wrapPerPage props n resp,
        ∃ xs, xs ≠ [] ∧ kv.2 = Json.arr xs) := by
  unfold wrapPerPage
  exact foldl_wrapStep_good n resp props [] (by simp [keysOf])
    (by intro kv h; exact absurd h (List.not_mem_nil kv))

theorem mergeEntry_arr (acc : List (String × Json)) (k0 : String)
    (xs0 : List Json)
    (hacc : ∀ k v, lookupJ acc k = some v → ∃ xs, v = Json.arr xs) :
    mergeEntry acc k0 (.arr xs0) =
      .ok (setKey acc k0 (.arr (arrOrEmpty (lookupJ acc k0) ++ xs0))) := by
  unfold mergeEntry
  cases hl : lookupJ acc k0 with
  | none =>
    simp only [jsTruthyOpt, Bool.false_eq_true, if_false,
      lookupJ_setKey_self, setKey_setKey, List.nil_append, arrOrEmpty]
  | some v =>
    obtain ⟨ys, rfl⟩ := hacc k0 v hl
    simp only [jsTruthyOpt, Json.jsTruthy, if_true, hl, arrOrEmpty]

theorem mergeEntry_fresh (acc : List (String × Json)) (k0 : String)
    (v0 : Json) (hl : lookupJ acc k0 = none) :
    mergeEntry acc k0 v0 = .ok (setKey acc k0 v0) := by
  unfold mergeEntry
  rw [hl]
  cases v0 <;>
    simp only [jsTruthyOpt, Bool.false_eq_true, if_false,
      lookupJ_setKey_self, setKey_setKey, List.nil_append]

theorem mergeResult_arrays :
    ∀ (r : List (String × Json)) (acc : List (String × Json)),
      (∀ kv ∈ r, ∃ xs, xs ≠ [] ∧ kv.2 = Json.arr xs) →
      (keysOf r).Nodup →
      (∀ k v, lookupJ acc k = some v → ∃ xs, v = Json.arr xs) →
      ∃ acc', mergeResult acc r = .ok acc' ∧
        (∀ k, lookupJ acc' k =
          (if k ∈ keysOf r then
            some (.arr (arrOrEmpty (lookupJ acc k) ++
              arrOrEmpty (lookupJ r k)))
          else lookupJ acc k)) ∧
        (∀ k v, lookupJ acc' k = some v → ∃ xs, v = Json.arr xs) := by
  intro r
  induction r with
  | nil =>
    intro acc _ _ hacc
    exact ⟨acc, rfl, by simp [keysOf], hacc⟩
  | cons kv0 rest ih =>
    rcases kv0 with ⟨k0, v0⟩
    intro acc hvals hnd hacc
    obtain ⟨xs0, hxs0ne, hv0⟩ :=
      hvals (k0, v0) (List.mem_cons_self _ _)
    simp only at hv0
    subst hv0
    have hnd2 : (k0 :: keysOf rest).Nodup := by
      rw [show keysOf ((k0, Json.arr xs0) :: rest) = k0 :: keysOf rest
        from rfl] at hnd
      exact hnd
    have hk0 : k0 ∉ keysOf rest := (List.nodup_cons.mp hnd2).1
    have hnd' : (keysOf rest).Nodup := (List.nodup_cons.mp hnd2).2
    have hme := mergeEntry_arr acc k0 xs0 hacc
    have hacc1 : ∀ k v,
        lookupJ (setKey acc k0
          (.arr (arrOrEmpty (lookupJ acc k0) ++ xs0))) k = some v →
        ∃ xs, v = Json.arr xs := by
      intro k v h
      by_cases hk : k0 = k
      · subst hk
        rw [lookupJ_setKey_self] at h
        exact ⟨_, (Option.some.inj h).symm⟩
      · rw [lookupJ_setKey_ne acc k0 _ k hk] at h
        exact hacc k v h
    obtain ⟨acc', hm', hchar', harr'⟩ := ih
      (setKey acc k0 (.arr (arrOrEmpty (lookupJ acc k0) ++ xs0)))
      (fun kv h => hvals kv (List.mem_cons_of_mem _ h)) hnd' hacc1
    refine ⟨acc', ?_, ?_, harr'⟩
    · unfold mergeResult
      rw [List.foldlM_cons]
      show (mergeEntry acc k0 (Json.arr xs0) >>= fun a =>
        List.foldlM (fun acc kv => mergeEntry acc kv.1 kv.2) a rest) =
          Except.ok acc'
      rw [hme]
      show List.foldlM (fun acc kv => mergeEntry acc kv.1 kv.2)
        (setKey acc k0 (.arr (arrOrEmpty (lookupJ acc k0) ++ xs0))) rest =
          Except.ok acc'
      exact hm'
    · intro k
      have hkeysc : keysOf ((k0, Json.arr xs0) :: rest) =
          k0 :: keysOf rest := rfl
      by_cases hk : k = k0
      · subst hk
        rw [hchar' k, if_neg hk0, lookupJ_setKey_self, hkeysc,
          if_pos (List.mem_cons_self _ _)]
        have hck : lookupJ ((k, Json.arr xs0) :: rest) k =
            some (Json.arr xs0) := by
          rw [lookupJ, if_pos rfl]
        rw [hck]
        rfl
      · rw [hchar' k, lookupJ_setKey_ne acc k0 _ k (fun h => hk h.symm)]
        have hcons : lookupJ ((k0, Json.arr xs0) :: rest) k =
            lookupJ rest k := by
          rw [lookupJ, if_neg (fun h => hk h.symm)]
        have hmemiff : (k ∈ keysOf ((k0, Json.arr xs0) :: rest)) ↔
            k ∈ keysOf rest := by
          rw [hkeysc]
          constructor
          · intro hc
            rcases List.mem_cons.mp hc with h | h
            · exact absurd h hk
            · exact h
          · exact List.mem_cons_of_mem _
        by_cases hkr : k ∈ keysOf rest
        · rw [if_pos hkr, if_pos (hmemiff.mpr hkr), hcons]
        · rw [if_neg hkr, if_neg (fun hc => hkr (hmemiff.mp hc))]

theorem mergeAll_arrays :
    ∀ (rs : List (List (String × Json))) (acc : List (String × Json)),
      (∀ r ∈ rs, (∀ kv ∈ r, ∃ xs, xs ≠ [] ∧ kv.2 = Json.arr xs) ∧
        (keysOf r).Nodup) →
      (∀ k v, lookupJ acc k = some v → ∃ xs, v = Json.arr xs) →
      ∃ acc', List.foldlM mergeResult acc rs = .ok acc' ∧
        (∀ k, lookupJ acc' k =
          (if (contribOf k rs).isEmpty then lookupJ acc k
           else some (.arr (arrOrEmpty (lookupJ acc k) ++
             contribOf k rs)))) ∧
        (∀ k v, lookupJ acc' k = some v → ∃ xs, v = Json.arr xs) := by
  intro rs
  induction rs with
  | nil =>
    intro acc _ hacc
    exact ⟨acc, rfl, by simp [contribOf], hacc⟩
  | cons r0 rest ih =>
    intro acc hgood hacc
    obtain ⟨acc1, hm1, hchar1, harr1⟩ := mergeResult_arrays r0 acc
      (hgood r0 (List.mem_cons_self _ _)).1
      (hgood r0 (List.mem_cons_self _ _)).2 hacc
    obtain ⟨acc', hm', hchar', harr'⟩ := ih acc1
      (fun r hr => hgood r (List.mem_cons_of_mem _ hr)) harr1
    refine ⟨acc', ?_, ?_, harr'⟩
    · rw [List.foldlM_cons]
      simp only [hm1, Except.bind]
      exact hm'
    · intro k
      rw [hchar' k, hchar1 k]
      by_cases hk : k ∈ keysOf r0
      · obtain ⟨v, hv⟩ := lookupJ_isSome_of_mem_keys r0 k hk
        obtain ⟨ys, hyne, hva⟩ :=
          (hgood r0 (List.mem_cons_self _ _)).1 (k, v)
            (mem_of_lookupJ r0 k v hv)
        simp only at hva
        subst hva
        have hcontrib : contribOf k (r0 :: rest) =
            ys ++ contribOf k rest := by
          simp [contribOf, hv, arrOrEmpty]
        rw [if_pos hk, hv]
        by_cases he : (contribOf k rest).isEmpty
        · have hre : contribOf k rest = [] := by
            simpa [List.isEmpty_iff] using he
          rw [if_pos he, hcontrib, hre]
          have : ¬ (ys ++ ([] : List Json)).isEmpty := by
            simp [List.isEmpty_iff, hyne]
          rw [if_neg this]
          simp [arrOrEmpty]
        · rw [if_neg he, hcontrib]
          have : ¬ (ys ++ contribOf k rest).isEmpty := by
            simp [List.isEmpty_iff, hyne]
          rw [if_neg this]
          simp [arrOrEmpty, List.append_assoc]
      · have hnone := lookupJ_eq_none_of_not_mem r0 k hk
        have hcontrib : contribOf k (r0 :: rest) = contribOf k rest := by
          simp [contribOf, hnone, arrOrEmpty]
        rw [if_neg hk, hcontrib]

theorem mergeResult_fresh :
    ∀ (rF : List (String × Json)) (acc : List (String × Json)),
      (keysOf rF).Nodup →
      (∀ kv ∈ rF, lookupJ acc kv.1 = none) →
      ∃ acc', mergeResult acc rF = .ok acc' ∧
        (∀ k v, lookupJ rF k = some v → lookupJ acc' k = some v) ∧
        (∀ k, lookupJ rF k = none → lookupJ acc' k = lookupJ acc k) := by
  intro rF
  induction rF with
  | nil =>
    intro acc _ _
    exact ⟨acc, rfl, fun k v h => Option.noConfusion h, fun k _ => rfl⟩
  | cons kv0 rest ih =>
    rcases kv0 with ⟨k0, v0⟩
    intro acc hnd hfresh
    have hl0 : lookupJ acc k0 = none :=
      hfresh (k0, v0) (List.mem_cons_self _ _)
    have hnd2 : (k0 :: keysOf rest).Nodup := by
      rw [show keysOf ((k0, v0) :: rest) = k0 :: keysOf rest
        from rfl] at hnd
      exact hnd
    have hk0 : k0 ∉ keysOf rest := (List.nodup_cons.mp hnd2).1
    have hnd' : (keysOf rest).Nodup := (List.nodup_cons.mp hnd2).2
    have hfresh' : ∀ kv ∈ rest, lookupJ (setKey acc k0 v0) kv.1 = none := by
      intro kv hkv
      have hne : k0 ≠ kv.1 := by
        intro h
        exact hk0 (h ▸ List.mem_map_of_mem (fun kv => kv.1) hkv)
      rw [lookupJ_setKey_ne acc k0 v0 kv.1 hne]
      exact hfresh kv (List.mem_cons_of_mem _ hkv)
    obtain ⟨acc', hm', hsome', hnone'⟩ := ih (setKey acc k0 v0) hnd' hfresh'
    refine ⟨acc', ?_, ?_, ?_⟩
    · unfold mergeResult
      rw [List.foldlM_cons]
      show (mergeEntry acc k0 v0 >>= fun a =>
        List.foldlM (fun acc kv => mergeEntry acc kv.1 kv.2) a rest) =
          Except.ok acc'
      rw [mergeEntry_fresh acc k0 v0 hl0]
      show List.foldlM (fun acc kv => mergeEntry acc kv.1 kv.2)
        (setKey acc k0 v0) rest = Except.ok acc'
      exact hm'
    · intro k v hkv
      by_cases hk : k0 = k
      · subst hk
        rw [lookupJ, if_pos rfl] at hkv
        have hrk : lookupJ rest k0 = none :=
          lookupJ_eq_none_of_not_mem rest k0 hk0
        rw [hnone' k0 hrk, lookupJ_setKey_self]
        exact hkv ▸ rfl
      · rw [lookupJ, if_neg hk] at hkv
        exact hsome' k v hkv
    · intro k hknone
      by_cases hk : k0 = k
      · subst hk
        rw [lookupJ, if_pos rfl] at hknone
        exact Option.noConfusion hknone
      · rw [lookupJ, if_neg hk] at hknone
        rw [hnone' k hknone, lookupJ_setKey_ne acc k0 v0 k hk]

theorem wrapAllAux_good (props : List String) :
    ∀ (responses : List (List (String × Json))) (n : Nat)
      (r : List (String × Json)), r ∈ wrapAllAux props responses n →
      (∀ kv ∈ r, ∃ xs, xs ≠ [] ∧ kv.2 = Json.arr xs) ∧
        (keysOf r).Nodup := by
  intro responses
  induction responses with
  | nil => intro n r h; simp [wrapAllAux] at h
  | cons resp rest ih =>
    intro n r h
    rcases List.mem_cons.mp h with h | h
    · subst h
      exact ⟨(wrapPerPage_good props n resp).2,
        (wrapPerPage_good props n resp).1⟩
    · exact ih (n + 1) r h

theorem contribOf_wrapAllAux_eq (props : List String) (hnd : props.Nodup)
    (k : String) (hk : k ∈ props) :
    ∀ (responses : List (List (String × Json))) (n : Nat),
      contribOf k (wrapAllAux props responses n) =
        expectedPerPageAux k responses n := by
  intro responses
  induction responses with
  | nil => intro n; rfl
  | cons resp rest ih =>
    intro n
    show arrOrEmpty (lookupJ (wrapPerPage props n resp) k) ++
        contribOf k (wrapAllAux props rest (n + 1)) = _
    rw [wrapPerPage_lookup props n resp k hnd, if_pos hk, ih (n + 1)]
    show _ = (match lookupJ resp k with
      | none => []
      | some .null => []
      | some v => [wrapEntry n v]) ++ expectedPerPageAux k rest (n + 1)
    cases hlr : lookupJ resp k with
    | none => rfl
    | some v => cases v <;> rfl

theorem contribOf_wrapAllAux_none (props : List String) (hnd : props.Nodup)
    (k : String) (hk : k ∉ props) :
    ∀ (responses : List (List (String × Json))) (n : Nat),
      contribOf k (wrapAllAux props responses n) = [] := by
  intro responses
  induction responses with
  | nil => intro n; rfl
  | cons resp rest ih =>
    intro n
    show arrOrEmpty (lookupJ (wrapPerPage props n resp) k) ++
        contribOf k (wrapAllAux props rest (n + 1)) = []
    rw [wrapPerPage_lookup props n resp k hnd, if_neg hk, ih (n + 1)]
    rfl

/-- C6: the merged `extracted` object.  Per-page responses are wrapped
into `{page: N, value}` entries (nulls and absent values dropped) and
the reduce concatenates them per key in page order; the full-document
response (whose keys are the full-doc schema's, disjoint from the
per-page properties) lands as bare values. -/
theorem zerox_extraction_merge (props : List String) (hnd : props.Nodup)
    (responses : List (List (String × Json)))
    (rF : List (String × Json)) (hFnd : (keysOf rF).Nodup)
    (hdisj : ∀ k, k ∈ keysOf rF → k ∉ props) :
    ∃ ext, mergeResults (wrapAll props responses ++ [rF]) = .ok ext ∧
      (∀ k, k ∈ props →
        lookupJ ext k =
          (if (expectedPerPage k responses).isEmpty then none
           else some (.arr (expectedPerPage k responses)))) ∧
      (∀ k v, lookupJ rF k = some v → lookupJ ext k = some v) := by
  obtain ⟨accAll, hAll, hchar, harr⟩ :=
    mergeAll_arrays (wrapAll props responses) []
      (fun r hr => wrapAllAux_good props responses 1 r hr)
      (fun k v h => Option.noConfusion h)
  have hacc0 : ∀ k : String, lookupJ ([] : List (String × Json)) k = none :=
    fun k => rfl
  have hfresh : ∀ kv ∈ rF, lookupJ accAll kv.1 = none := by
    intro kv hkv
    have hkk : kv.1 ∈ keysOf rF :=
      List.mem_map_of_mem (fun kv => kv.1) hkv
    have hnp := hdisj kv.1 hkk
    have hcontrib : contribOf kv.1 (wrapAll props responses) = [] :=
      contribOf_wrapAllAux_none props hnd kv.1 hnp responses 1
    rw [hchar kv.1, hcontrib]
    exact hacc0 kv.1
  obtain ⟨ext, hF, hsome, hnone⟩ := mergeResult_fresh rF accAll hFnd hfresh
  refine ⟨ext, ?_, ?_, hsome⟩
  · unfold mergeResults
    rw [List.foldlM_append]
    show (List.foldlM mergeResult [] (wrapAll props responses) >>=
      fun a => List.foldlM mergeResult a [rF]) = Except.ok ext
    rw [hAll]
    show List.foldlM mergeResult accAll [rF] = Except.ok ext
    rw [List.foldlM_cons]
    show (mergeResult accAll rF >>= fun a => List.foldlM mergeResult a []) =
      Except.ok ext
    rw [hF]
    rfl
  · intro k hk
    have hkF : lookupJ rF k = none :=
      lookupJ_eq_none_of_not_mem rF k (fun hmm => hdisj k hmm hk)
    have hwa : contribOf k (wrapAll props responses) =
        expectedPerPage k responses :=
      contribOf_wrapAllAux_eq props hnd k hk responses 1
    rw [hnone k hkF, hchar k, hwa, hacc0 k]
    show (if (expectedPerPage k responses).isEmpty then none
      else some (Json.arr (arrOrEmpty none ++ expectedPerPage k responses))) = _
    by_cases he : (expectedPerPage k responses).isEmpty
    · rw [if_pos he, if_pos he]
    · rw [if_neg he, if_neg he]
      rfl

/-- C6 witness: schema `{invoiceNumber (full-doc), lineItems (per
page)}` over two pages, page 2 returning null — the null entry is
dropped, the per-page value is wrapped with its page number, and the
full-doc value lands bare. -/
theorem zerox_extraction_merge_witness :
    ∃ ext, mergeResults (wrapAll ["lineItems"] [[("lineItems", Json.str "a")], [("lineItems", Json.null)]] ++ [[("invoiceNumber", Json.str "A-1")]]) = .ok ext ∧
      lookupJ ext "lineItems" = some (.arr [wrapEntry 1 (Json.str "a")]) ∧
      lookupJ ext "invoiceNumber" = some (Json.str "A-1") := by
  obtain ⟨ext, hm, hper, hfull⟩ := zerox_extraction_merge ["lineItems"]
    (List.nodup_singleton _)
    [[("lineItems", Json.str "a")], [("lineItems", Json.null)]]
    [("invoiceNumber", Json.str "A-1")] (List.nodup_singleton _)
    (by
      intro k hk
      have : k = "invoiceNumber" := by simpa [keysOf] using hk
      subst this
      simp)
  refine ⟨ext, hm, ?_, hfull "invoiceNumber" (Json.str "A-1") rfl⟩
  rw [hper "lineItems" (List.mem_singleton.mpr rfl)]
  rfl

end Zerox
